import Mathlib

/-!
Verification of the morseplayer repository (src/morseplayer.c and the
portaudio variant src/unnamed/part_000) against its specification.

The C sources are shallowly embedded below.  Floating-point computations of
the timing model (C `float` arithmetic with `rintf`) are modelled over exact
rationals; `rintf` (round to nearest, ties to even, the C default rounding
mode) is modelled by `rintQ`.  Sample buffers are lists; machine pointers
become list offsets.  The global playback queue (`struct play_head`) becomes
an explicit state value, extended with two history ("ghost") fields that
record the stream of samples consumed from the queue and the stream of
samples enqueued, so that FIFO ordering can be stated.
-/

namespace Morseplayer

/-- Rounds a rational to the nearest integer, ties to even: models C `rintf`
in the default rounding mode, applied to the exact value. -/
def rintQ (x : ℚ) : ℤ :=
  if x - ⌊x⌋ < 1/2 then ⌊x⌋
  else if 1/2 < x - ⌊x⌋ then ⌊x⌋ + 1
  else if ⌊x⌋ % 2 = 0 then ⌊x⌋ else ⌊x⌋ + 1

/-- Timing model of `build_snd` (both variants): the number of samples of a
tone of `units` timing units at character speed `c` wpm and sample rate `R`,
`nsamps = rintf((units + 1.0) * (1.2 / charwpm) * rate)`.
(`src/morseplayer.c` stores `nsamps * channels * precision/8` bytes in
`snd->len`; the byte count is this sample count times a positive constant.) -/
def build_snd_len (c : ℚ) (R : ℕ) (units : ℚ) : ℤ :=
  rintQ ((units + 1) * (6/5 / c) * R)

/-- Sample count of the dit segment: `build_snd(..., 1.0)`. -/
def build_dit_len (c : ℚ) (R : ℕ) : ℤ := build_snd_len c R 1

/-- Sample count of the dah segment: `build_snd(..., 3.0)`. -/
def build_dah_len (c : ℚ) (R : ℕ) : ℤ := build_snd_len c R 3

/-- Farnsworth total extra-pause time
`Ta = ((60.0 * charwpm) - (37.2 * overallwpm)) / (charwpm * overallwpm)`
used by `build_inChar` and `build_inWord`. -/
def farnsworth_Ta (o c : ℚ) : ℚ := (60 * c - (186/5) * o) / (c * o)

/-- Sample count computed by `build_inChar`: the inter-character gap.
When `overallwpm >= charwpm` the plain length `3 * (1.2/overallwpm) * rate`
is used, otherwise the Farnsworth length `Tc * rate` with `Tc = 3*Ta/19`;
in both cases half a dit length is subtracted before rounding. -/
def build_inChar_len (o c : ℚ) (R : ℕ) : ℤ :=
  rintQ ((if c ≤ o then 3 * (6/5 / o) * (R : ℚ) else 3 * farnsworth_Ta o c / 19 * R) -
    (build_dit_len c R : ℚ) / 2)

/-- Sample count computed by `build_inWord`: the inter-word gap.  Same
two-branch structure with factor `7`, subtracting the (already rounded)
inter-character length plus half a dit length before rounding. -/
def build_inWord_len (o c : ℚ) (R : ℕ) : ℤ :=
  rintQ ((if c ≤ o then 7 * (6/5 / o) * (R : ℚ) else 7 * farnsworth_Ta o c / 19 * R) -
    ((build_inChar_len o c R : ℚ) + (build_dit_len c R : ℚ) / 2))

/-- Samples per PARIS word as accumulated by `time_check`:
`10*dit + 4*dah + 5*inChar + 1*inWord` (in samples; `src/morseplayer.c`
divides its byte lengths back to samples by `channels * precision/8`,
exactly recovering these counts). -/
def time_check_perword (o c : ℚ) (R : ℕ) : ℚ :=
  10 * (build_dit_len c R : ℚ) + 4 * (build_dah_len c R : ℚ) +
    5 * (build_inChar_len o c R : ℚ) + 1 * (build_inWord_len o c R : ℚ)

/-- Effective words per minute measured by `time_check`:
`m = sampmin / perword` with `sampmin = rate * 60.0`. -/
def time_check_wpm (o c : ℚ) (R : ℕ) : ℚ :=
  (R : ℚ) * 60 / time_check_perword o c R

/-- Relative rate error in percent computed by `time_check`:
`e = (fabsf(m - overallwpm) / overallwpm) * 100`. -/
def time_check_err (o c : ℚ) (R : ℕ) : ℚ :=
  |time_check_wpm o c R - o| / o * 100

/-- Sound segment `struct a_sound`: a sample buffer and its recorded
length.  Samples are modelled as rationals (sample bytes for
`src/morseplayer.c`, floats for `src/unnamed/part_000`). -/
structure a_sound where
  len : ℕ
  buf : List ℚ
deriving DecidableEq

/-- Segment built by `build_silence` in `src/morseplayer.c`: `snd->len`
bytes zero-filled by `memset`. -/
def build_silence (len : ℕ) : a_sound := ⟨len, List.replicate len 0⟩

/-- Number of zeroed float samples actually provided by `build_silence` in
`src/unnamed/part_000`: that variant allocates and zeroes `snd->len` BYTES
(`x_malloc(snd->len)`, `memset(..., snd->len)`) although its `float *buf`
holds four-byte float samples — compare `build_snd` in the same file, which
allocates `snd->len * sizeof(float)`. -/
def silence_float_samples_zeroed (len : ℕ) : ℕ := len / 4

/-- Number of float samples consumers (`mp_callback`) read from a part_000
silence segment: its full recorded length. -/
def silence_float_samples_read (len : ℕ) : ℕ := len

/-- Queue entry `struct play_list`: a referenced sound, the read cursor
`pl_ptr` (as an offset into the buffer) and the remaining count `pl_res`. -/
structure play_list where
  snd : a_sound
  ptr : ℕ
  res : ℕ
deriving DecidableEq

/-- Samples a queue entry will still emit: the buffer from the cursor on,
limited to the remaining count. -/
def entry_stream (e : play_list) : List ℚ := (e.snd.buf.drop e.ptr).take e.res

/-- Samples the whole queue will still emit, head entry first. -/
def queue_stream (q : List play_list) : List ℚ := (q.map entry_stream).flatten

/-- Sum of the remaining counts of the queued entries. -/
def queue_res_sum (q : List play_list) : ℤ := (q.map fun e => (e.res : ℤ)).sum

/-- Playback queue state `struct play_head` (fields `l`, `nent`, `nsamps`),
extended with two history fields: `consumed` records every sample taken off
the queue for output and `hist` records every sample ever enqueued.  The
history fields are ghost state used only to state FIFO ordering. -/
structure play_head where
  l : List play_list
  nent : ℤ
  nsamps : ℤ
  consumed : List ℚ
  hist : List ℚ
deriving DecidableEq

/-- State set up by `playlist_init`: empty queue and free list, zero
counters. -/
def playlist_init : play_head := ⟨[], 0, 0, [], []⟩

/-- Effect of `enqueue_sound(snd, len)` followed by `playlist_enqueue`: a
fresh entry with the cursor at the start of the buffer and `pl_res = len` is
appended at the tail; `nent` is incremented and `nsamps` grows by
`snd->len`. -/
def enqueue_sound (snd : a_sound) (len : ℕ) (st : play_head) : play_head :=
  { l := st.l ++ [⟨snd, 0, len⟩]
    nent := st.nent + 1
    nsamps := st.nsamps + snd.len
    consumed := st.consumed
    hist := st.hist ++ entry_stream ⟨snd, 0, len⟩ }

/-- Result of one `feed_audio` call: the new queue, the samples written from
queue entries (in order), the silence samples written on underrun, the total
decrement applied to `nsamps`, and the number of entries dequeued. -/
structure feed_res where
  q : List play_list
  cons : List ℚ
  sil : List ℚ
  n : ℕ
  deq : ℕ
deriving DecidableEq

/-- Loop of `feed_audio` in `src/morseplayer.c`, writing up to `res` bytes:
while `res != 0`, on an empty queue write `res` bytes of the quiet block and
stop; if the head entry holds more than `res` bytes, write `res` of its
bytes, advance its cursor and remaining count and stop; otherwise write the
whole head entry, dequeue and free it, and continue with the rest of the
budget. -/
def feed_audio (quiet : a_sound) : List play_list → ℕ → feed_res
  | q, 0 => ⟨q, [], [], 0, 0⟩
  | [], Nat.succ res => ⟨[], [], quiet.buf.take (res + 1), 0, 0⟩
  | e :: rest, Nat.succ res =>
    if Nat.succ res < e.res then
      ⟨⟨e.snd, e.ptr + (res + 1), e.res - (res + 1)⟩ :: rest,
        (e.snd.buf.drop e.ptr).take (res + 1), [], res + 1, 0⟩
    else
      let r := feed_audio quiet rest (Nat.succ res - e.res)
      ⟨r.q, (e.snd.buf.drop e.ptr).take e.res ++ r.cons, r.sil, e.res + r.n, 1 + r.deq⟩

/-- Effect of one `feed_audio` call on the playback state. -/
def apply_feed (quiet : a_sound) (res : ℕ) (st : play_head) : play_head :=
  { l := (feed_audio quiet st.l res).q
    nent := st.nent - (feed_audio quiet st.l res).deq
    nsamps := st.nsamps - (feed_audio quiet st.l res).n
    consumed := st.consumed ++ (feed_audio quiet st.l res).cons
    hist := st.hist }

/-- Result of one `mp_callback` invocation: the new queue, the consumed
queue samples (one per frame served from the queue), the interleaved stereo
output (two samples per frame, zeros on underrun), the total decrement
applied to `nsamps` and the number of entries dequeued. -/
structure cb_res where
  q : List play_list
  cons : List ℚ
  out : List ℚ
  n : ℕ
  deq : ℕ
deriving DecidableEq

/-- Frame loop of `mp_callback` in `src/unnamed/part_000`: for each of
`framesPerBuffer` frames, write two zero samples if the queue is empty;
otherwise write the head entry's current sample to both channels, advance
its cursor, decrement its remaining count and `nsamps`, and dequeue and
free the entry once its remaining count reaches zero.  (`e->pl_res--` acts
on a `u_int`; every call site enqueues entries with positive `pl_res`, so
the decrement never wraps and `e.res - 1` is exact.) -/
def mp_callback : List play_list → ℕ → cb_res
  | q, 0 => ⟨q, [], [], 0, 0⟩
  | [], Nat.succ f =>
    let r := mp_callback [] f
    ⟨r.q, r.cons, 0 :: 0 :: r.out, r.n, r.deq⟩
  | e :: rest, Nat.succ f =>
    let v := e.snd.buf.getD e.ptr 0
    if e.res - 1 = 0 then
      let r := mp_callback rest f
      ⟨r.q, v :: r.cons, v :: v :: r.out, r.n + 1, r.deq + 1⟩
    else
      let r := mp_callback (⟨e.snd, e.ptr + 1, e.res - 1⟩ :: rest) f
      ⟨r.q, v :: r.cons, v :: v :: r.out, r.n + 1, r.deq⟩

/-- Effect of one `mp_callback` invocation on the playback state. -/
def apply_cb (frames : ℕ) (st : play_head) : play_head :=
  { l := (mp_callback st.l frames).q
    nent := st.nent - (mp_callback st.l frames).deq
    nsamps := st.nsamps - (mp_callback st.l frames).n
    consumed := st.consumed ++ (mp_callback st.l frames).cons
    hist := st.hist }

/-- Operation on the playback queue: an `enqueue_sound` of a whole segment
(every call site passes `enqueue_sound(&snd, snd.len)`), one `feed_audio`
call with a block budget, or one `mp_callback` with a frame count. -/
inductive q_op where
  | enq (snd : a_sound)
  | feed (quiet : a_sound) (res : ℕ)
  | cb (frames : ℕ)
deriving DecidableEq

/-- Apply one queue operation. -/
def apply_op (st : play_head) : q_op → play_head
  | q_op.enq snd => enqueue_sound snd snd.len st
  | q_op.feed quiet res => apply_feed quiet res st
  | q_op.cb frames => apply_cb frames st

/-- Apply a sequence of queue operations in order. -/
def apply_ops (st : play_head) (ops : List q_op) : play_head :=
  ops.foldl apply_op st

/-- Sounds enqueued by a sequence of operations. -/
def ops_sounds (ops : List q_op) : List a_sound :=
  ops.filterMap fun op => match op with
    | q_op.enq snd => some snd
    | _ => none

/-- Well-formed segment: the recorded length is positive and matches the
buffer (true of every segment the program builds under a valid
configuration). -/
def sound_wf (snd : a_sound) : Prop := snd.buf.length = snd.len ∧ 1 ≤ snd.len

/-- Well-formed queue entry: positive remaining count, and cursor plus
remaining count spanning exactly the rest of the buffer
(`cursor + remaining = segment length`). -/
def entry_wf (e : play_list) : Prop := 1 ≤ e.res ∧ e.ptr + e.res = e.snd.buf.length

/-- Invariant of the playback queue state: well-formed entries, `nsamps`
equal to the sum of the entries' remaining counts, `nent` equal to the
number of entries, and the consumed history extended by the still-queued
samples equal to the enqueued history. -/
def head_inv (st : play_head) : Prop :=
  (∀ e ∈ st.l, entry_wf e) ∧
  st.nsamps = queue_res_sum st.l ∧
  st.nent = (st.l.length : ℤ) ∧
  st.consumed ++ queue_stream st.l = st.hist

/-- Segment kinds referenced by the Morse encoder. -/
inductive seg where
  | dit
  | dah
  | inChar
  | inWord
deriving DecidableEq

/-- Morse code table `morse_chars`: the ASCII byte of each supported
character (letters stored lowercase) and its dot/dash pattern.  The
terminating `{ '\0', NULL }` sentinel of the C array is represented by the
end of the list. -/
def morse_chars : List (ℕ × List Char) :=
  [ ('a'.toNat, ['.', '-']),
    ('b'.toNat, ['-', '.', '.', '.']),
    ('c'.toNat, ['-', '.', '-', '.']),
    ('d'.toNat, ['-', '.', '.']),
    ('e'.toNat, ['.']),
    ('f'.toNat, ['.', '.', '-', '.']),
    ('g'.toNat, ['-', '-', '.']),
    ('h'.toNat, ['.', '.', '.', '.']),
    ('i'.toNat, ['.', '.']),
    ('j'.toNat, ['.', '-', '-', '-']),
    ('k'.toNat, ['-', '.', '-']),
    ('l'.toNat, ['.', '-', '.', '.']),
    ('m'.toNat, ['-', '-']),
    ('n'.toNat, ['-', '.']),
    ('o'.toNat, ['-', '-', '-']),
    ('p'.toNat, ['.', '-', '-', '.']),
    ('q'.toNat, ['-', '-', '.', '-']),
    ('r'.toNat, ['.', '-', '.']),
    ('s'.toNat, ['.', '.', '.']),
    ('t'.toNat, ['-']),
    ('u'.toNat, ['.', '.', '-']),
    ('v'.toNat, ['.', '.', '.', '-']),
    ('w'.toNat, ['.', '-', '-']),
    ('x'.toNat, ['-', '.', '.', '-']),
    ('y'.toNat, ['-', '.', '-', '-']),
    ('z'.toNat, ['-', '-', '.', '.']),
    ('0'.toNat, ['-', '-', '-', '-', '-']),
    ('1'.toNat, ['.', '-', '-', '-', '-']),
    ('2'.toNat, ['.', '.', '-', '-', '-']),
    ('3'.toNat, ['.', '.', '.', '-', '-']),
    ('4'.toNat, ['.', '.', '.', '.', '-']),
    ('5'.toNat, ['.', '.', '.', '.', '.']),
    ('6'.toNat, ['-', '.', '.', '.', '.']),
    ('7'.toNat, ['-', '-', '.', '.', '.']),
    ('8'.toNat, ['-', '-', '-', '.', '.']),
    ('9'.toNat, ['-', '-', '-', '-', '.']),
    ('/'.toNat, ['-', '.', '.', '-', '.']),
    ('?'.toNat, ['.', '.', '-', '-', '.', '.']),
    (','.toNat, ['-', '-', '.', '.', '-', '-']),
    ('.'.toNat, ['.', '-', '.', '-', '.', '-']),
    ('*'.toNat, ['.', '.', '.', '-', '.', '-']),
    ('+'.toNat, ['.', '-', '.', '-', '.']),
    ('='.toNat, ['-', '.', '.', '.', '-']),
    ('|'.toNat, ['.', '-', '.', '.', '.']) ]

/-- Lowercasing step of `convert_char`: `tolower` applied under the guard `c < 0x80 && isupper(c)` of
`convert_char`. -/
def lower_byte (b : ℕ) : ℕ :=
  if b < 0x80 ∧ 65 ≤ b ∧ b ≤ 90 then b + 32 else b

/-- C `isspace` of the C locale on byte values: space, tab, newline,
vertical tab, form feed, carriage return. -/
def byte_isspace (b : ℕ) : Bool :=
  b == 32 || (decide (9 ≤ b) && decide (b ≤ 13))

/-- Model of `play_string`: enqueue a dit for each '.', a dah for each '-', abort via
`errx` on any other character (modelled as `none`), then unconditionally
enqueue one inter-character gap. -/
def play_string : List Char → Option (List seg)
  | [] => some [seg.inChar]
  | ch :: rest =>
    if ch = '.' then (play_string rest).map fun l => seg.dit :: l
    else if ch = '-' then (play_string rest).map fun l => seg.dah :: l
    else none

/-- Model of `convert_char`: lowercase the byte, look it up in `morse_chars` (first
matching entry), play the pattern on a hit, enqueue nothing on a miss. -/
def convert_char (b : ℕ) : Option (List seg) :=
  match morse_chars.find? fun p => p.1 == lower_byte b with
  | some p => play_string p.2
  | none => some []

/-- Per-byte step of `fetch_chars`: a byte that is `≥ 0x80` or not a space
goes through `convert_char` and clears the seen-space flag; a space byte
enqueues one inter-word gap and sets the flag if the flag was clear, and
enqueues nothing otherwise. -/
def fetch_one (sp : Bool) (b : ℕ) : Option (Bool × List seg) :=
  if 0x80 ≤ b ∨ byte_isspace b = false then
    (convert_char b).map fun l => (false, l)
  else if sp = false then some (true, [seg.inWord])
  else some (sp, [])

/-- Byte loop of `fetch_chars` over one read chunk, threading the
seen-space flag and concatenating the enqueued segment references. -/
def fetch_chars : Bool → List ℕ → Option (Bool × List seg)
  | sp, [] => some (sp, [])
  | sp, b :: rest =>
    match fetch_one sp b with
    | none => none
    | some (sp1, out1) =>
      match fetch_chars sp1 rest with
      | none => none
      | some (sp2, out2) => some (sp2, out1 ++ out2)

/-- Parameters of the poll loop of `src/morseplayer.c`: the four segments
built at startup, the quiet block, the audio block size and the queueing
threshold `sp_sampthresh`. -/
structure loop_params where
  snds : seg → a_sound
  quiet : a_sound
  blocksize : ℕ
  sampthresh : ℤ

/-- Enqueue the sounds of a list of segment references, each with its full
length, as `play_string` and `fetch_chars` do via
`enqueue_sound(&snd, snd.len)`. -/
def enqueue_segs (P : loop_params) (st : play_head) (tags : List seg) : play_head :=
  tags.foldl (fun s t => enqueue_sound (P.snds t) (P.snds t).len s) st

/-- State of `main_loop` in `src/morseplayer.c`: the playback queue, the
seen-space flag, the pending input chunks (an empty chunk models the
zero-length read at end of input), the `iseof` flag, the number of
`AUDIO_DRAIN` calls issued so far, and whether the loop has exited. -/
structure loop_state where
  mp : play_head
  seenspace : Bool
  input : List (List ℕ)
  iseof : Bool
  drains : ℕ
  done : Bool

/-- POLLOUT arm of the loop body: one `feed_audio` call; then, if end of
input has been observed and the queue is now empty, one `AUDIO_DRAIN`
followed by `break`. -/
def output_update (P : loop_params) (s : loop_state) : loop_state :=
  if s.iseof = true ∧ (feed_audio P.quiet s.mp.l P.blocksize).q = [] then
    { s with mp := apply_feed P.quiet P.blocksize s.mp, drains := s.drains + 1, done := true }
  else
    { s with mp := apply_feed P.quiet P.blocksize s.mp }

/-- One observable step of `main_loop`: a ready `stdin` read (armed only
while `nsamps < sp_sampthresh` and before end of input) that either returns
zero bytes and records end of input, or feeds a nonempty chunk through
`fetch_chars`; or a ready `POLLOUT` handled by `output_update`.  A poll
iteration in which both descriptors are ready is the composition of an
input step and an output step. -/
inductive loop_step (P : loop_params) : loop_state → loop_state → Prop
  | read_eof (s : loop_state) (rest : List (List ℕ)) :
      s.done = false → s.iseof = false → s.mp.nsamps < P.sampthresh →
      s.input = [] :: rest →
      loop_step P s { s with iseof := true, input := rest }
  | read_chunk (s : loop_state) (chunk : List ℕ) (rest : List (List ℕ))
      (sp : Bool) (tags : List seg) :
      s.done = false → s.iseof = false → s.mp.nsamps < P.sampthresh →
      s.input = chunk :: rest → chunk ≠ [] →
      fetch_chars s.seenspace chunk = some (sp, tags) →
      loop_step P s
        { s with mp := enqueue_segs P s.mp tags, seenspace := sp, input := rest }
  | write_out (s : loop_state) :
      s.done = false →
      loop_step P s (output_update P s)

/-- Reflexive-transitive closure of `loop_step`. -/
inductive loop_reaches (P : loop_params) : loop_state → loop_state → Prop
  | refl (s : loop_state) : loop_reaches P s s
  | tail (s t u : loop_state) :
      loop_reaches P s t → loop_step P t u → loop_reaches P s u

/-- Initial state of `main_loop` over the given pending input: freshly
initialized playback queue, clear seen-space flag (`pars.sp_seenspace = 0`),
`iseof = 0`, no drain issued, loop running. -/
def loop_init (input : List (List ℕ)) : loop_state :=
  ⟨playlist_init, false, input, false, 0, false⟩

/-- Invariant of the poll loop: the playback-queue invariant holds, no
drain is issued while the loop runs, and an exited loop has an empty queue,
has seen end of input, and has drained exactly once. -/
def loop_inv (s : loop_state) : Prop :=
  head_inv s.mp ∧
  (s.done = false → s.drains = 0) ∧
  (s.done = true → s.mp.l = [] ∧ s.iseof = true ∧ s.drains = 1)

/-- Concrete loop parameters used to exercise the poll loop: every segment
and the quiet block are one zero sample, block size one, threshold one. -/
def demo_params : loop_params := ⟨fun _ => ⟨1, [0]⟩, ⟨1, [0]⟩, 1, 1⟩

/-- Loop state reached from `loop_init [[]]` after the zero-length read. -/
def demo_mid : loop_state := ⟨playlist_init, false, [], true, 0, false⟩

/-- Value of `rintQ` at an integer. -/
theorem rintQ_intCast (n : ℤ) : rintQ (n : ℚ) = n := by
  unfold rintQ
  rw [Int.floor_intCast]
  simp

/-- Value of `rintQ` when the argument lies in `[n, n + 1/2)`. -/
theorem rintQ_eq_of_lt_half (x : ℚ) (n : ℤ) (h1 : (n : ℚ) ≤ x) (h2 : x < n + 1/2) :
    rintQ x = n := by
  have hf : ⌊x⌋ = n := by
    rw [Int.floor_eq_iff]
    constructor
    · exact h1
    · push_cast
      linarith
  unfold rintQ
  rw [hf, if_pos]
  rw [sub_lt_iff_lt_add]
  push_cast
  linarith

/-- Upper bound of rounding: `rintQ x ≤ x + 1/2`. -/
theorem rintQ_le (x : ℚ) : (rintQ x : ℚ) ≤ x + 1/2 := by
  have hf1 : ((⌊x⌋ : ℤ) : ℚ) ≤ x := Int.floor_le x
  have hf2 : x < (⌊x⌋ : ℤ) + 1 := Int.lt_floor_add_one x
  unfold rintQ
  split_ifs with h1 h2 h3 <;> push_cast <;> push_cast at h1 <;> linarith

/-- Lower bound of rounding: `x - 1/2 ≤ rintQ x`. -/
theorem le_rintQ (x : ℚ) : x - 1/2 ≤ (rintQ x : ℚ) := by
  have hf1 : ((⌊x⌋ : ℤ) : ℚ) ≤ x := Int.floor_le x
  have hf2 : x < (⌊x⌋ : ℤ) + 1 := Int.lt_floor_add_one x
  unfold rintQ
  split_ifs with h1 h2 h3 <;> push_cast <;> push_cast at h1 <;>
    first
      | linarith
      | (push_cast at h2; linarith)

/-- Rounding moves a value by at most `1/2`. -/
theorem abs_rintQ_sub (x : ℚ) : |(rintQ x : ℚ) - x| ≤ 1/2 := by
  rw [abs_sub_le_iff]
  constructor
  · linarith [rintQ_le x]
  · linarith [le_rintQ x]

/-- Strict monotonicity of rounding across a gap larger than one. -/
theorem rintQ_lt_rintQ (x y : ℚ) (h : x + 1 < y) : rintQ x < rintQ y := by
  have h1 := rintQ_le x
  have h2 := le_rintQ y
  have : (rintQ x : ℚ) < (rintQ y : ℚ) := by linarith
  exact_mod_cast this

/-- Value of `rintQ` when the argument lies in `(n + 1/2, n + 1)`. -/
theorem rintQ_eq_of_gt_half (x : ℚ) (n : ℤ) (h1 : (n : ℚ) + 1/2 < x) (h2 : x < n + 1) :
    rintQ x = n + 1 := by
  have hf : ⌊x⌋ = n := by
    rw [Int.floor_eq_iff]
    constructor
    · push_cast
      linarith
    · push_cast
      linarith
  unfold rintQ
  rw [hf, if_neg, if_pos]
  · rw [lt_sub_iff_add_lt]
    push_cast
    linarith
  · rw [not_lt, le_sub_iff_add_le]
    push_cast
    linarith

/-- C1 counterexample: at the valid configuration
`overallRate = charRate = 20`, `sampleRate = 44100` (which satisfies
`1.0 ≤ overallRate ≤ charRate ≤ 70.0`), the synthesized lengths are
dit = 5292, dah = 10584, interCharGap = 5292, interWordGap = 10584, so
`dah length < interCharGap length` fails and the lengths are not strictly
increasing. -/
theorem c1_counterexample :
    ((1:ℚ) ≤ 20 ∧ (20:ℚ) ≤ 20 ∧ (20:ℚ) ≤ 70) ∧
    ¬ (build_dit_len 20 44100 < build_dah_len 20 44100 ∧
       build_dah_len 20 44100 < build_inChar_len 20 20 44100 ∧
       build_inChar_len 20 20 44100 < build_inWord_len 20 20 44100) := by
  have hdit : build_dit_len 20 44100 = 5292 := by
    unfold build_dit_len build_snd_len
    apply rintQ_eq_of_lt_half <;> push_cast <;> norm_num
  have hdah : build_dah_len 20 44100 = 10584 := by
    unfold build_dah_len build_snd_len
    apply rintQ_eq_of_lt_half <;> push_cast <;> norm_num
  have hic : build_inChar_len 20 20 44100 = 5292 := by
    unfold build_inChar_len
    rw [if_pos (by norm_num : (20:ℚ) ≤ 20), hdit]
    apply rintQ_eq_of_lt_half <;> push_cast <;> norm_num
  refine ⟨by norm_num, ?_⟩
  rw [hdah, hic]
  intro hcon
  exact absurd hcon.2.1 (by norm_num)

/-- C1 amended: for a valid configuration whose rates are genuinely in the
Farnsworth regime (`113 * overallRate ≤ 90 * charRate`, in particular
strictly below the threshold `75.2 * overallRate < 60 * charRate` at which
the inter-character gap overtakes the dah) and whose sample rate is a real
audio rate (`8000 ≤ sampleRate`), the synthesized segment lengths are
strictly increasing: dit < dah < interCharGap < interWordGap. -/
theorem c1_ordering (o c : ℚ) (R : ℕ) (ho1 : 1 ≤ o) (ho70 : o ≤ 70) (hc70 : c ≤ 70)
    (hfw : 113 * o ≤ 90 * c) (hR : 8000 ≤ R) :
    build_dit_len c R < build_dah_len c R ∧
    build_dah_len c R < build_inChar_len o c R ∧
    build_inChar_len o c R < build_inWord_len o c R := by
  have hRq : (8000:ℚ) ≤ (R:ℚ) := by exact_mod_cast hR
  have ho0 : (0:ℚ) < o := by linarith
  have hc0 : (0:ℚ) < c := by linarith
  have hoc : o < c := by linarith
  have hco : ¬ c ≤ o := not_le.mpr hoc
  have hdit_def : build_dit_len c R = rintQ ((1 + 1) * (6/5 / c) * (R:ℚ)) := rfl
  have hdah_def : build_dah_len c R = rintQ ((3 + 1) * (6/5 / c) * (R:ℚ)) := rfl
  have hic_def : build_inChar_len o c R =
      rintQ (3 * farnsworth_Ta o c / 19 * (R:ℚ) - (build_dit_len c R : ℚ) / 2) := by
    unfold build_inChar_len
    rw [if_neg hco]
  have hiw_def : build_inWord_len o c R =
      rintQ (7 * farnsworth_Ta o c / 19 * (R:ℚ) -
        ((build_inChar_len o c R : ℚ) + (build_dit_len c R : ℚ) / 2)) := by
    unfold build_inWord_len
    rw [if_neg hco]
  have hD : (274:ℚ) ≤ (1 + 1) * (6/5 / c) * (R:ℚ) := by
    have he : ((1:ℚ) + 1) * (6/5 / c) * (R:ℚ) = 12 * R / (5 * c) := by ring
    rw [he, le_div_iff (by positivity)]
    nlinarith
  have hd_le : (build_dit_len c R : ℚ) ≤ (1 + 1) * (6/5 / c) * (R:ℚ) + 1/2 := by
    rw [hdit_def]
    exact rintQ_le _
  have hd_ge : (1 + 1) * (6/5 / c) * (R:ℚ) - 1/2 ≤ (build_dit_len c R : ℚ) := by
    rw [hdit_def]
    exact le_rintQ _
  have hkey : (3:ℚ)/2 ≤ 3 * farnsworth_Ta o c / 19 * (R:ℚ) - 6 * R / c := by
    have he : 3 * farnsworth_Ta o c / 19 * (R:ℚ) - 6 * R / c
        = (R * (180 * c - (1128/5) * o)) / (19 * (c * o)) := by
      unfold farnsworth_Ta
      field_simp
      ring
    rw [he, le_div_iff (by positivity)]
    nlinarith [mul_nonneg (by positivity : (0:ℚ) ≤ (R:ℚ))
        (by linarith : (0:ℚ) ≤ 90 * c - 113 * o),
      mul_le_mul_of_nonneg_right hRq (le_of_lt hc0),
      mul_le_mul_of_nonneg_left ho70 (le_of_lt hc0)]
  have hB : ((3 + 1) * (6/5 / c) * (R:ℚ)) + 1 <
      3 * farnsworth_Ta o c / 19 * (R:ℚ) - (build_dit_len c R : ℚ) / 2 := by
    have h6 : (6:ℚ) * R / c = (3 + 1) * (6/5 / c) * (R:ℚ) + ((1 + 1) * (6/5 / c) * (R:ℚ)) / 2 := by
      ring
    linarith
  have hic_le : (build_inChar_len o c R : ℚ) ≤
      (3 * farnsworth_Ta o c / 19 * (R:ℚ) - (build_dit_len c R : ℚ) / 2) + 1/2 := by
    rw [hic_def]
    exact rintQ_le _
  have hTa : (0:ℚ) ≤ farnsworth_Ta o c := by
    unfold farnsworth_Ta
    apply div_nonneg
    · nlinarith
    · positivity
  have hTaR : (0:ℚ) ≤ farnsworth_Ta o c / 19 * (R:ℚ) := by
    apply mul_nonneg
    · linarith
    · positivity
  have hC : (3 * farnsworth_Ta o c / 19 * (R:ℚ) - (build_dit_len c R : ℚ) / 2) + 1 <
      7 * farnsworth_Ta o c / 19 * (R:ℚ) -
        ((build_inChar_len o c R : ℚ) + (build_dit_len c R : ℚ) / 2) := by
    linarith
  refine ⟨?_, ?_, ?_⟩
  · rw [hdit_def, hdah_def]
    apply rintQ_lt_rintQ
    linarith
  · rw [hdah_def, hic_def]
    exact rintQ_lt_rintQ _ _ hB
  · rw [hiw_def]
    conv_lhs => rw [hic_def]
    exact rintQ_lt_rintQ _ _ hC

/-- C1 witness: the amended ordering theorem applied at the default
configuration `overallRate = 5`, `charRate = 18`, `sampleRate = 44100`. -/
theorem c1_ordering_witness :
    ((1:ℚ) ≤ 5 ∧ (5:ℚ) ≤ 70 ∧ (18:ℚ) ≤ 70 ∧ (113:ℚ) * 5 ≤ 90 * 18 ∧ 8000 ≤ 44100) ∧
    (build_dit_len 18 44100 < build_dah_len 18 44100 ∧
     build_dah_len 18 44100 < build_inChar_len 5 18 44100 ∧
     build_inChar_len 5 18 44100 < build_inWord_len 5 18 44100) :=
  ⟨by norm_num,
    c1_ordering 5 18 44100 (by norm_num) (by norm_num) (by norm_num) (by norm_num)
      (by norm_num)⟩

/-- Bound on the measured rate error, given two-sided bounds on the samples
per word: if `perword` is within `49/4` samples of the ideal `60*R/o`, the
reported percentage error is at most one percent. -/
theorem time_err_bound_aux (o : ℚ) (R : ℕ) (W : ℚ) (ho1 : 1 ≤ o) (ho70 : o ≤ 70)
    (hR : 8000 ≤ R) (hlo : 60 * (R:ℚ) / o - 49/4 ≤ W) (hhi : W ≤ 60 * (R:ℚ) / o + 49/4) :
    |(R:ℚ) * 60 / W - o| / o * 100 ≤ 1 := by
  have hRq : (8000:ℚ) ≤ (R:ℚ) := by exact_mod_cast hR
  have ho0 : (0:ℚ) < o := by linarith
  have hP : o * (60 * (R:ℚ) / o) = 60 * (R:ℚ) := by
    field_simp
  have h60 : (6857:ℚ) ≤ 60 * (R:ℚ) / o := by
    rw [le_div_iff ho0]
    nlinarith
  have hW0 : (0:ℚ) < W := by linarith
  have hoW_ub : o * W ≤ 60 * (R:ℚ) + (49/4) * o := by
    calc o * W ≤ o * (60 * (R:ℚ) / o + 49/4) :=
          mul_le_mul_of_nonneg_left hhi (le_of_lt ho0)
    _ = o * (60 * (R:ℚ) / o) + o * (49/4) := by ring
    _ = 60 * (R:ℚ) + (49/4) * o := by rw [hP]; ring
  have hoW_lb : 60 * (R:ℚ) - (49/4) * o ≤ o * W := by
    calc (60:ℚ) * R - (49/4) * o = o * (60 * (R:ℚ) / o) - o * (49/4) := by rw [hP]; ring
    _ = o * (60 * (R:ℚ) / o - 49/4) := by ring
    _ ≤ o * W := mul_le_mul_of_nonneg_left hlo (le_of_lt ho0)
  have main : |(R:ℚ) * 60 / W - o| ≤ o / 100 := by
    rw [abs_le]
    constructor
    · have h1 : o - o / 100 ≤ (R:ℚ) * 60 / W := by
        rw [le_div_iff hW0]
        nlinarith
      linarith
    · have h2 : (R:ℚ) * 60 / W ≤ o + o / 100 := by
        rw [div_le_iff hW0]
        nlinarith
      linarith
  have h100 : |(R:ℚ) * 60 / W - o| * 100 ≤ o := by linarith
  calc |(R:ℚ) * 60 / W - o| / o * 100 = |(R:ℚ) * 60 / W - o| * 100 / o := by ring
  _ ≤ o / o := by
      rw [div_le_div_iff_of_pos_right ho0]
      exact h100
  _ = 1 := div_self (ne_of_gt ho0)

/-- C9: for every valid configuration with `1 ≤ overallRate ≤ charRate ≤ 70`
and a real audio sample rate (`8000 ≤ sampleRate`), the effective rate
`sampleRate*60 / perword` measured by `time_check` over the PARIS word
`perword = 10*dit + 4*dah + 5*interChar + 1*interWord` differs from
`overallRate` by at most one percent. -/
theorem c9_rate_accuracy (o c : ℚ) (R : ℕ) (ho1 : 1 ≤ o) (hoc : o ≤ c) (hc70 : c ≤ 70)
    (hR : 8000 ≤ R) : time_check_err o c R ≤ 1 := by
  have ho70 : o ≤ 70 := le_trans hoc hc70
  have ho0 : (0:ℚ) < o := by linarith
  have hc0 : (0:ℚ) < c := by linarith
  by_cases hco : c ≤ o
  · -- non-Farnsworth branch: the two rates are equal
    have hceq : c = o := le_antisymm hco hoc
    subst hceq
    have hdit_def : build_dit_len c R = rintQ ((1 + 1) * (6/5 / c) * (R:ℚ)) := rfl
    have hdah_def : build_dah_len c R = rintQ ((3 + 1) * (6/5 / c) * (R:ℚ)) := rfl
    have hic_def : build_inChar_len c c R =
        rintQ (3 * (6/5 / c) * (R:ℚ) - (build_dit_len c R : ℚ) / 2) := by
      unfold build_inChar_len
      rw [if_pos le_rfl]
    have hiw_def : build_inWord_len c c R =
        rintQ (7 * (6/5 / c) * (R:ℚ) -
          ((build_inChar_len c c R : ℚ) + (build_dit_len c R : ℚ) / 2)) := by
      unfold build_inWord_len
      rw [if_pos le_rfl]
    have hd1 : (build_dit_len c R : ℚ) ≤ (1 + 1) * (6/5 / c) * (R:ℚ) + 1/2 := by
      rw [hdit_def]; exact rintQ_le _
    have hd2 : (1 + 1) * (6/5 / c) * (R:ℚ) - 1/2 ≤ (build_dit_len c R : ℚ) := by
      rw [hdit_def]; exact le_rintQ _
    have ha1 : (build_dah_len c R : ℚ) ≤ (3 + 1) * (6/5 / c) * (R:ℚ) + 1/2 := by
      rw [hdah_def]; exact rintQ_le _
    have ha2 : (3 + 1) * (6/5 / c) * (R:ℚ) - 1/2 ≤ (build_dah_len c R : ℚ) := by
      rw [hdah_def]; exact le_rintQ _
    have hi1 : (build_inChar_len c c R : ℚ) ≤
        (3 * (6/5 / c) * (R:ℚ) - (build_dit_len c R : ℚ) / 2) + 1/2 := by
      rw [hic_def]; exact rintQ_le _
    have hi2 : (3 * (6/5 / c) * (R:ℚ) - (build_dit_len c R : ℚ) / 2) - 1/2 ≤
        (build_inChar_len c c R : ℚ) := by
      rw [hic_def]; exact le_rintQ _
    have hw1 : (build_inWord_len c c R : ℚ) ≤
        (7 * (6/5 / c) * (R:ℚ) -
          ((build_inChar_len c c R : ℚ) + (build_dit_len c R : ℚ) / 2)) + 1/2 := by
      rw [hiw_def]; exact rintQ_le _
    have hw2 : (7 * (6/5 / c) * (R:ℚ) -
          ((build_inChar_len c c R : ℚ) + (build_dit_len c R : ℚ) / 2)) - 1/2 ≤
        (build_inWord_len c c R : ℚ) := by
      rw [hiw_def]; exact le_rintQ _
    have hkey : (50:ℚ) * ((6/5 / c) * (R:ℚ)) = 60 * (R:ℚ) / c := by
      field_simp
      ring
    have hWlo : 60 * (R:ℚ) / c - 49/4 ≤ time_check_perword c c R := by
      unfold time_check_perword
      linarith
    have hWhi : time_check_perword c c R ≤ 60 * (R:ℚ) / c + 49/4 := by
      unfold time_check_perword
      linarith
    unfold time_check_err time_check_wpm
    exact time_err_bound_aux c R _ ho1 ho70 hR hWlo hWhi
  · -- Farnsworth branch
    have hic_def : build_inChar_len o c R =
        rintQ (3 * farnsworth_Ta o c / 19 * (R:ℚ) - (build_dit_len c R : ℚ) / 2) := by
      unfold build_inChar_len
      rw [if_neg hco]
    have hiw_def : build_inWord_len o c R =
        rintQ (7 * farnsworth_Ta o c / 19 * (R:ℚ) -
          ((build_inChar_len o c R : ℚ) + (build_dit_len c R : ℚ) / 2)) := by
      unfold build_inWord_len
      rw [if_neg hco]
    have hd1 : (build_dit_len c R : ℚ) ≤ (1 + 1) * (6/5 / c) * (R:ℚ) + 1/2 :=
      rintQ_le _
    have hd2 : (1 + 1) * (6/5 / c) * (R:ℚ) - 1/2 ≤ (build_dit_len c R : ℚ) :=
      le_rintQ _
    have ha1 : (build_dah_len c R : ℚ) ≤ (3 + 1) * (6/5 / c) * (R:ℚ) + 1/2 :=
      rintQ_le _
    have ha2 : (3 + 1) * (6/5 / c) * (R:ℚ) - 1/2 ≤ (build_dah_len c R : ℚ) :=
      le_rintQ _
    have hi1 : (build_inChar_len o c R : ℚ) ≤
        (3 * farnsworth_Ta o c / 19 * (R:ℚ) - (build_dit_len c R : ℚ) / 2) + 1/2 := by
      rw [hic_def]; exact rintQ_le _
    have hi2 : (3 * farnsworth_Ta o c / 19 * (R:ℚ) - (build_dit_len c R : ℚ) / 2) - 1/2 ≤
        (build_inChar_len o c R : ℚ) := by
      rw [hic_def]; exact le_rintQ _
    have hw1 : (build_inWord_len o c R : ℚ) ≤
        (7 * farnsworth_Ta o c / 19 * (R:ℚ) -
          ((build_inChar_len o c R : ℚ) + (build_dit_len c R : ℚ) / 2)) + 1/2 := by
      rw [hiw_def]; exact rintQ_le _
    have hw2 : (7 * farnsworth_Ta o c / 19 * (R:ℚ) -
          ((build_inChar_len o c R : ℚ) + (build_dit_len c R : ℚ) / 2)) - 1/2 ≤
        (build_inWord_len o c R : ℚ) := by
      rw [hiw_def]; exact le_rintQ _
    have hkey : (31:ℚ) * ((6/5 / c) * (R:ℚ)) + 4 * (3 * farnsworth_Ta o c / 19 * (R:ℚ)) +
        7 * farnsworth_Ta o c / 19 * (R:ℚ) = 60 * (R:ℚ) / o := by
      unfold farnsworth_Ta
      field_simp
      ring
    have hWlo : 60 * (R:ℚ) / o - 49/4 ≤ time_check_perword o c R := by
      unfold time_check_perword
      linarith
    have hWhi : time_check_perword o c R ≤ 60 * (R:ℚ) / o + 49/4 := by
      unfold time_check_perword
      linarith
    unfold time_check_err time_check_wpm
    exact time_err_bound_aux o R _ ho1 ho70 hR hWlo hWhi

/-- C9 witness: the rate-accuracy theorem applied at the default
configuration `overallRate = 5`, `charRate = 18`, `sampleRate = 44100`. -/
theorem c9_rate_accuracy_witness :
    ((1:ℚ) ≤ 5 ∧ (5:ℚ) ≤ 18 ∧ (18:ℚ) ≤ 70 ∧ 8000 ≤ 44100) ∧
    time_check_err 5 18 44100 ≤ 1 :=
  ⟨by norm_num,
    c9_rate_accuracy 5 18 44100 (by norm_num) (by norm_num) (by norm_num) (by norm_num)⟩

/-- Stream of an empty queue. -/
theorem queue_stream_nil : queue_stream [] = [] := rfl

/-- Stream of a non-empty queue. -/
theorem queue_stream_cons (e : play_list) (q : List play_list) :
    queue_stream (e :: q) = entry_stream e ++ queue_stream q := by
  simp [queue_stream]

/-- Stream of a concatenation of queues. -/
theorem queue_stream_append (q1 q2 : List play_list) :
    queue_stream (q1 ++ q2) = queue_stream q1 ++ queue_stream q2 := by
  simp [queue_stream]

/-- Remaining-count sum of a non-empty queue. -/
theorem queue_res_sum_cons (e : play_list) (q : List play_list) :
    queue_res_sum (e :: q) = (e.res : ℤ) + queue_res_sum q := by
  simp [queue_res_sum]

/-- Remaining-count sum of a concatenation of queues. -/
theorem queue_res_sum_append (q1 q2 : List play_list) :
    queue_res_sum (q1 ++ q2) = queue_res_sum q1 + queue_res_sum q2 := by
  simp [queue_res_sum]

/-- Splitting an entry's pending samples at a write of `k` of them. -/
theorem entry_stream_split (e : play_list) (k : ℕ) (hk : k ≤ e.res) :
    (e.snd.buf.drop e.ptr).take k ++ (e.snd.buf.drop (e.ptr + k)).take (e.res - k) =
      entry_stream e := by
  unfold entry_stream
  have hd : e.snd.buf.drop (e.ptr + k) = (e.snd.buf.drop e.ptr).drop k := by
    rw [List.drop_drop]
  rw [hd, ← List.take_add]
  congr 1
  omega

/-- Head sample of a well-formed entry's pending stream. -/
theorem entry_stream_head (e : play_list) (hwf : entry_wf e) :
    entry_stream e = e.snd.buf.getD e.ptr 0 ::
      (e.snd.buf.drop (e.ptr + 1)).take (e.res - 1) := by
  obtain ⟨h1, h2⟩ := hwf
  have hlt : e.ptr < e.snd.buf.length := by omega
  obtain ⟨r, hr⟩ : ∃ r, e.res = r + 1 := ⟨e.res - 1, by omega⟩
  unfold entry_stream
  rw [hr, List.getD_eq_getElem _ _ hlt]
  conv_lhs => rw [List.drop_eq_getElem_cons hlt]
  rw [List.take_succ_cons, Nat.add_sub_cancel]

/-- Behaviour of one `feed_audio` call on a well-formed queue: the written
queue samples followed by the remaining queue stream reproduce the original
queue stream (no skipping, no reordering), the remaining-count sum drops by
exactly the `nsamps` decrement, the entry count drops by exactly the number
of dequeued entries, and the queue stays well formed. -/
theorem feed_audio_spec (quiet : a_sound) (q : List play_list) (res : ℕ)
    (hwf : ∀ e ∈ q, entry_wf e) :
    (feed_audio quiet q res).cons ++ queue_stream (feed_audio quiet q res).q =
      queue_stream q ∧
    queue_res_sum (feed_audio quiet q res).q + (feed_audio quiet q res).n =
      queue_res_sum q ∧
    (feed_audio quiet q res).q.length + (feed_audio quiet q res).deq = q.length ∧
    ∀ e ∈ (feed_audio quiet q res).q, entry_wf e := by
  induction q generalizing res with
  | nil =>
    rcases res with _ | r <;> simp [feed_audio]
  | cons e rest ih =>
    rcases res with _ | r
    · simpa [feed_audio] using hwf
    · have hwe : entry_wf e := hwf e (List.mem_cons_self e rest)
      have hwrest : ∀ x ∈ rest, entry_wf x := fun x hx => hwf x (List.mem_cons_of_mem e hx)
      by_cases hlt : Nat.succ r < e.res
      · simp only [feed_audio, if_pos hlt]
        refine ⟨?_, ?_, ?_, ?_⟩
        · rw [queue_stream_cons, queue_stream_cons, ← List.append_assoc]
          have hsp := entry_stream_split e (r + 1) (le_of_lt hlt)
          rw [show entry_stream ⟨e.snd, e.ptr + (r + 1), e.res - (r + 1)⟩ =
              (e.snd.buf.drop (e.ptr + (r + 1))).take (e.res - (r + 1)) from rfl, hsp]
        · rw [queue_res_sum_cons, queue_res_sum_cons]
          dsimp only
          have h1 := hwe.1
          omega
        · simp
        · intro x hx
          rcases List.mem_cons.mp hx with hx | hx
          · subst hx
            have h2 := hwe.2
            constructor
            · show 1 ≤ e.res - (r + 1)
              omega
            · show e.ptr + (r + 1) + (e.res - (r + 1)) = e.snd.buf.length
              omega
          · exact hwrest x hx
      · simp only [feed_audio, if_neg hlt]
        obtain ⟨ih1, ih2, ih3, ih4⟩ := ih (Nat.succ r - e.res) hwrest
        refine ⟨?_, ?_, ?_, ih4⟩
        · rw [List.append_assoc, ih1, queue_stream_cons]
          rfl
        · rw [queue_res_sum_cons]
          omega
        · simp only [List.length_cons]
          omega
  -- end feed_audio_spec

/-- Behaviour of one `mp_callback` invocation on a well-formed queue: same
shape as `feed_audio_spec`. -/
theorem mp_callback_spec (q : List play_list) (f : ℕ)
    (hwf : ∀ e ∈ q, entry_wf e) :
    (mp_callback q f).cons ++ queue_stream (mp_callback q f).q = queue_stream q ∧
    queue_res_sum (mp_callback q f).q + (mp_callback q f).n = queue_res_sum q ∧
    (mp_callback q f).q.length + (mp_callback q f).deq = q.length ∧
    ∀ e ∈ (mp_callback q f).q, entry_wf e := by
  induction f generalizing q with
  | zero => simpa [mp_callback] using hwf
  | succ f ih =>
    rcases q with _ | ⟨e, rest⟩
    · simpa [mp_callback] using ih [] (by simp)
    · have hwe : entry_wf e := hwf e (List.mem_cons_self e rest)
      have hwrest : ∀ x ∈ rest, entry_wf x := fun x hx => hwf x (List.mem_cons_of_mem e hx)
      by_cases h1 : e.res - 1 = 0
      · have hres : e.res = 1 := by have := hwe.1; omega
        simp only [mp_callback, if_pos h1]
        obtain ⟨ih1, ih2, ih3, ih4⟩ := ih rest hwrest
        refine ⟨?_, ?_, ?_, ih4⟩
        · rw [queue_stream_cons, entry_stream_head e hwe, h1]
          simp [ih1]
        · rw [queue_res_sum_cons]
          omega
        · simp only [List.length_cons]
          omega
      · have hwe' : entry_wf (⟨e.snd, e.ptr + 1, e.res - 1⟩ : play_list) := by
          have hr1 := hwe.1
          have h2 := hwe.2
          constructor
          · show 1 ≤ e.res - 1
            omega
          · show e.ptr + 1 + (e.res - 1) = e.snd.buf.length
            omega
        have hwq' : ∀ x ∈ (⟨e.snd, e.ptr + 1, e.res - 1⟩ : play_list) :: rest, entry_wf x := by
          intro x hx
          rcases List.mem_cons.mp hx with hx | hx
          · subst hx; exact hwe'
          · exact hwrest x hx
        obtain ⟨ih1, ih2, ih3, ih4⟩ := ih (⟨e.snd, e.ptr + 1, e.res - 1⟩ :: rest) hwq'
        simp only [mp_callback, if_neg h1]
        refine ⟨?_, ?_, ?_, ih4⟩
        · rw [queue_stream_cons, entry_stream_head e hwe]
          rw [queue_stream_cons] at ih1
          simp only [List.cons_append, ih1]
          rfl
        · rw [queue_res_sum_cons] at ih2 ⊢
          dsimp only at ih2
          have := hwe.1
          omega
        · rw [List.length_cons] at ih3 ⊢
          omega
  -- end mp_callback_spec

/-- Enqueueing a well-formed sound preserves the playback-state invariant. -/
theorem enqueue_sound_inv (snd : a_sound) (st : play_head) (hs : sound_wf snd)
    (hinv : head_inv st) : head_inv (enqueue_sound snd snd.len st) := by
  obtain ⟨h1, h2, h3, h4⟩ := hinv
  obtain ⟨hb, hl⟩ := hs
  refine ⟨?_, ?_, ?_, ?_⟩
  · intro e he
    rcases List.mem_append.mp he with he | he
    · exact h1 e he
    · rw [List.mem_singleton.mp he]
      exact ⟨hl, by simp [hb]⟩
  · simp only [enqueue_sound, queue_res_sum_append, queue_res_sum_cons]
    simp [queue_res_sum, h2]
  · simp [enqueue_sound, h3]
  · simp only [enqueue_sound, queue_stream_append, ← List.append_assoc, h4]
    simp [queue_stream]

/-- Every single queue operation preserves the playback-state invariant. -/
theorem apply_op_inv (st : play_head) (op : q_op) (hinv : head_inv st)
    (hop : ∀ snd ∈ ops_sounds [op], sound_wf snd) : head_inv (apply_op st op) := by
  obtain ⟨h1, h2, h3, h4⟩ := hinv
  rcases op with snd | ⟨quiet, res⟩ | frames
  · exact enqueue_sound_inv snd st (hop snd (by simp [ops_sounds])) ⟨h1, h2, h3, h4⟩
  · obtain ⟨f1, f2, f3, f4⟩ := feed_audio_spec quiet st.l res h1
    refine ⟨f4, ?_, ?_, ?_⟩
    · show st.nsamps - ((feed_audio quiet st.l res).n : ℤ) =
        queue_res_sum (feed_audio quiet st.l res).q
      omega
    · show st.nent - ((feed_audio quiet st.l res).deq : ℤ) =
        ((feed_audio quiet st.l res).q.length : ℤ)
      omega
    · show st.consumed ++ (feed_audio quiet st.l res).cons ++
        queue_stream (feed_audio quiet st.l res).q = st.hist
      rw [List.append_assoc, f1, h4]
  · obtain ⟨f1, f2, f3, f4⟩ := mp_callback_spec st.l frames h1
    refine ⟨f4, ?_, ?_, ?_⟩
    · show st.nsamps - ((mp_callback st.l frames).n : ℤ) =
        queue_res_sum (mp_callback st.l frames).q
      omega
    · show st.nent - ((mp_callback st.l frames).deq : ℤ) =
        ((mp_callback st.l frames).q.length : ℤ)
      omega
    · show st.consumed ++ (mp_callback st.l frames).cons ++
        queue_stream (mp_callback st.l frames).q = st.hist
      rw [List.append_assoc, f1, h4]

/-- A sequence of queue operations whose enqueued sounds are well formed
preserves the playback-state invariant. -/
theorem apply_ops_inv (ops : List q_op) (st : play_head) (hinv : head_inv st)
    (hops : ∀ snd ∈ ops_sounds ops, sound_wf snd) : head_inv (apply_ops st ops) := by
  induction ops generalizing st with
  | nil => simpa [apply_ops] using hinv
  | cons op rest ih =>
    have hstep : head_inv (apply_op st op) := by
      apply apply_op_inv st op hinv
      intro snd hs
      apply hops
      rcases op <;> simp [ops_sounds, List.filterMap_cons] at hs ⊢ <;> tauto
    have hrest : ∀ snd ∈ ops_sounds rest, sound_wf snd := by
      intro snd hs
      apply hops
      rcases op <;> simp [ops_sounds, List.filterMap_cons] at hs ⊢ <;> tauto
    have : apply_ops st (op :: rest) = apply_ops (apply_op st op) rest := by
      simp [apply_ops]
    rw [this]
    exact ih (apply_op st op) hstep hrest

/-- Initial playback state satisfies the invariant. -/
theorem head_inv_init : head_inv playlist_init := by
  refine ⟨?_, ?_, ?_, ?_⟩ <;> simp [playlist_init, queue_res_sum, queue_stream]

/-- C6: after any sequence of enqueue and consume operations (both consume
forms: `feed_audio` and `mp_callback`) starting from the freshly
initialized empty queue, the aggregate `nsamps` counter equals the sum of
the remaining counts of the queued entries, the entry counter equals the
number of queued entries, and the samples consumed so far followed by the
samples still queued reproduce exactly the stream of enqueued samples in
enqueue order (strict FIFO: append at tail, remove at head, no skipping). -/
theorem c6_fifo_invariant (ops : List q_op)
    (hops : ∀ snd ∈ ops_sounds ops, sound_wf snd) :
    (apply_ops playlist_init ops).nsamps =
      queue_res_sum (apply_ops playlist_init ops).l ∧
    (apply_ops playlist_init ops).nent =
      ((apply_ops playlist_init ops).l.length : ℤ) ∧
    (apply_ops playlist_init ops).consumed ++
        queue_stream (apply_ops playlist_init ops).l =
      (apply_ops playlist_init ops).hist := by
  obtain ⟨g1, g2, g3, g4⟩ := apply_ops_inv ops playlist_init head_inv_init hops
  exact ⟨g2, g3, g4⟩

/-- C6 witness: the queue invariant after a concrete enqueue, one
`feed_audio` call and one `mp_callback` call. -/
theorem c6_fifo_invariant_witness :
    (∀ snd ∈ ops_sounds
        [q_op.enq ⟨2, [3, 7]⟩, q_op.feed ⟨4, [0, 0, 0, 0]⟩ 1, q_op.cb 2],
      sound_wf snd) ∧
    ((apply_ops playlist_init
        [q_op.enq ⟨2, [3, 7]⟩, q_op.feed ⟨4, [0, 0, 0, 0]⟩ 1, q_op.cb 2]).nsamps =
      queue_res_sum (apply_ops playlist_init
        [q_op.enq ⟨2, [3, 7]⟩, q_op.feed ⟨4, [0, 0, 0, 0]⟩ 1, q_op.cb 2]).l ∧
    (apply_ops playlist_init
        [q_op.enq ⟨2, [3, 7]⟩, q_op.feed ⟨4, [0, 0, 0, 0]⟩ 1, q_op.cb 2]).nent =
      (((apply_ops playlist_init
        [q_op.enq ⟨2, [3, 7]⟩, q_op.feed ⟨4, [0, 0, 0, 0]⟩ 1, q_op.cb 2]).l.length : ℤ)) ∧
    (apply_ops playlist_init
        [q_op.enq ⟨2, [3, 7]⟩, q_op.feed ⟨4, [0, 0, 0, 0]⟩ 1, q_op.cb 2]).consumed ++
        queue_stream (apply_ops playlist_init
        [q_op.enq ⟨2, [3, 7]⟩, q_op.feed ⟨4, [0, 0, 0, 0]⟩ 1, q_op.cb 2]).l =
      (apply_ops playlist_init
        [q_op.enq ⟨2, [3, 7]⟩, q_op.feed ⟨4, [0, 0, 0, 0]⟩ 1, q_op.cb 2]).hist) := by
  have hproof : ∀ snd ∈ ops_sounds
      [q_op.enq ⟨2, [3, 7]⟩, q_op.feed ⟨4, [0, 0, 0, 0]⟩ 1, q_op.cb 2],
      sound_wf snd := by
    intro snd hs
    simp [ops_sounds, List.filterMap_cons] at hs
    subst hs
    exact ⟨rfl, by norm_num⟩
  exact ⟨hproof, c6_fifo_invariant _ hproof⟩

/-- C7: a consume request of any size against an empty queue yields zero
queued samples, dequeues nothing, decrements no counter, and substitutes
silence (the quiet block in `feed_audio`, zero samples on both channels in
`mp_callback`); it leaves the playback state completely unchanged, can be
repeated any number of times, and a subsequent enqueue adds an entry. -/
theorem c7_empty_consume (quiet snd : a_sound) (res frames : ℕ) (st : play_head)
    (hq : st.l = []) :
    (feed_audio quiet [] res).q = [] ∧
    (feed_audio quiet [] res).cons = [] ∧
    (feed_audio quiet [] res).n = 0 ∧
    (feed_audio quiet [] res).deq = 0 ∧
    (res ≠ 0 → (feed_audio quiet [] res).sil = quiet.buf.take res) ∧
    (mp_callback [] frames).q = [] ∧
    (mp_callback [] frames).cons = [] ∧
    (mp_callback [] frames).n = 0 ∧
    (mp_callback [] frames).out = List.replicate (2 * frames) 0 ∧
    apply_feed quiet res st = st ∧
    apply_cb frames st = st ∧
    (∀ k, (apply_feed quiet res)^[k] st = st) ∧
    (∀ k, (apply_cb frames)^[k] st = st) ∧
    (enqueue_sound snd snd.len st).l.length = st.l.length + 1 := by
  have hcb : ∀ f, mp_callback [] f = ⟨[], [], List.replicate (2 * f) 0, 0, 0⟩ := by
    intro f
    induction f with
    | zero => rfl
    | succ f ihf =>
      rw [show 2 * (f + 1) = 2 * f + 1 + 1 by ring]
      simp [mp_callback, ihf, List.replicate_succ]
  have hfeed : (feed_audio quiet [] res).q = [] ∧ (feed_audio quiet [] res).cons = [] ∧
      (feed_audio quiet [] res).n = 0 ∧ (feed_audio quiet [] res).deq = 0 := by
    rcases res with _ | r <;> simp [feed_audio]
  obtain ⟨l, ne, ns, co, hi⟩ := st
  simp only at hq
  subst hq
  have haf : apply_feed quiet res ⟨[], ne, ns, co, hi⟩ = ⟨[], ne, ns, co, hi⟩ := by
    simp [apply_feed, hfeed.1, hfeed.2.1, hfeed.2.2.1, hfeed.2.2.2]
  have hac : apply_cb frames ⟨[], ne, ns, co, hi⟩ = ⟨[], ne, ns, co, hi⟩ := by
    simp [apply_cb, hcb frames]
  refine ⟨hfeed.1, hfeed.2.1, hfeed.2.2.1, hfeed.2.2.2, ?_, ?_, ?_, ?_, ?_,
    haf, hac, ?_, ?_, ?_⟩
  · intro hres
    rcases res with _ | r
    · exact absurd rfl hres
    · simp [feed_audio]
  · simp [hcb frames]
  · simp [hcb frames]
  · simp [hcb frames]
  · simp [hcb frames]
  · intro k
    exact Function.iterate_fixed haf k
  · intro k
    exact Function.iterate_fixed hac k
  · simp [enqueue_sound]

/-- C7 witness: the empty-queue consume theorem applied at a concrete quiet
block, segment, request sizes and state. -/
theorem c7_empty_consume_witness :
    ((playlist_init.l = []) ∧
      (feed_audio ⟨2, [0, 0]⟩ [] 2).cons = [] ∧
      (mp_callback [] 3).out = List.replicate 6 0 ∧
      apply_feed ⟨2, [0, 0]⟩ 2 playlist_init = playlist_init) := by
  have h := c7_empty_consume ⟨2, [0, 0]⟩ ⟨1, [5]⟩ 2 3 playlist_init rfl
  exact ⟨rfl, h.2.1, h.2.2.2.2.2.2.2.2.1, h.2.2.2.2.2.2.2.2.2.1⟩

/-- C8: in `src/morseplayer.c` a silence segment of recorded length `len`
holds exactly `len` samples, all zero (for both integer sample formats the
zero byte pattern is the zero sample); in `src/unnamed/part_000` (float
output format) `build_silence` zeroes only `len` bytes, i.e. `len / 4` of
the `len` float samples its consumers read — at the default configuration
the inter-character gap has `len = 66227`, of which only `16556` float
samples are backed by the allocation. -/
theorem c8_silence_zero_fill (len : ℕ) :
    ((build_silence len).len = len ∧
     (build_silence len).buf.length = len ∧
     (∀ i, i < len → (build_silence len).buf.getD i 1 = 0)) ∧
    (1 ≤ len → silence_float_samples_zeroed len < silence_float_samples_read len) ∧
    build_inChar_len 5 18 44100 = 66227 ∧
    silence_float_samples_zeroed 66227 = 16556 := by
  refine ⟨⟨rfl, by simp [build_silence], ?_⟩, ?_, ?_, rfl⟩
  · intro i hi
    show (List.replicate len (0:ℚ)).getD i 1 = 0
    rw [List.getD_eq_getElem _ _ (by simpa using hi)]
    simp
  · intro h
    unfold silence_float_samples_zeroed silence_float_samples_read
    omega
  · have hdit : build_dit_len 18 44100 = 5880 := by
      unfold build_dit_len build_snd_len
      apply rintQ_eq_of_lt_half <;> push_cast <;> norm_num
    unfold build_inChar_len
    rw [if_neg (by norm_num), hdit]
    apply rintQ_eq_of_lt_half
    · unfold farnsworth_Ta
      push_cast
      norm_num
    · unfold farnsworth_Ta
      push_cast
      norm_num

/-- C8 witness: zero-fill of a length-4 silence buffer, and the float
shortfall at length 4. -/
theorem c8_silence_zero_fill_witness :
    ((2:ℕ) < 4 ∧ (build_silence 4).buf.getD 2 1 = 0) ∧
    ((1:ℕ) ≤ 4 ∧ silence_float_samples_zeroed 4 < silence_float_samples_read 4) :=
  ⟨⟨by norm_num, (c8_silence_zero_fill 4).1.2.2 2 (by norm_num)⟩,
    ⟨by norm_num, (c8_silence_zero_fill 4).2.1 (by norm_num)⟩⟩

/-- Validity of the static Morse table: non-NUL keys, non-empty patterns,
and only '.' and '-' symbols. -/
theorem morse_chars_patterns_valid :
    ∀ p ∈ morse_chars, p.1 ≠ 0 ∧ p.2 ≠ [] ∧ ∀ ch ∈ p.2, ch = '.' ∨ ch = '-' := by
  decide

/-- On a pattern of dots and dashes, `play_string` never hits its abort
branch and enqueues the corresponding dit/dah segments followed by one
inter-character gap. -/
theorem play_string_valid (l : List Char) (h : ∀ ch ∈ l, ch = '.' ∨ ch = '-') :
    play_string l =
      some (l.map (fun ch => if ch = '.' then seg.dit else seg.dah) ++ [seg.inChar]) := by
  induction l with
  | nil => rfl
  | cons ch rest ih =>
    have hr : ∀ x ∈ rest, x = '.' ∨ x = '-' := fun x hx => h x (List.mem_cons_of_mem ch hx)
    rcases h ch (List.mem_cons_self ch rest) with h1 | h1
    · subst h1
      simp [play_string, ih hr]
    · subst h1
      simp [play_string, ih hr]

/-- C3: for every byte whose lowercased value is found in the Morse table,
the encoder enqueues one dit per '.' and one dah per '-' of the pattern, in
pattern order, followed by exactly one inter-character gap; in particular
the input "sos" (bytes 115, 111, 115) yields exactly
dit,dit,dit,gap, dah,dah,dah,gap, dit,dit,dit,gap. -/
theorem c3_encode_hit :
    (∀ b p, morse_chars.find? (fun q => q.1 == lower_byte b) = some p →
      convert_char b =
        some (p.2.map (fun ch => if ch = '.' then seg.dit else seg.dah) ++ [seg.inChar])) ∧
    fetch_chars false [115, 111, 115] =
      some (false,
        [seg.dit, seg.dit, seg.dit, seg.inChar, seg.dah, seg.dah, seg.dah, seg.inChar,
         seg.dit, seg.dit, seg.dit, seg.inChar]) := by
  constructor
  · intro b p hfind
    have hmem : p ∈ morse_chars := List.mem_of_find?_eq_some hfind
    have hval := (morse_chars_patterns_valid p hmem).2.2
    unfold convert_char
    rw [hfind]
    exact play_string_valid p.2 hval
  · decide

/-- C3 witness: the hit case applied at byte 101 ('e'). -/
theorem c3_encode_hit_witness :
    morse_chars.find? (fun q => q.1 == lower_byte 101) = some ('e'.toNat, ['.']) ∧
    convert_char 101 = some [seg.dit, seg.inChar] := by
  have h := c3_encode_hit.1 101 ('e'.toNat, ['.']) (by decide)
  exact ⟨by decide, by simpa using h⟩

/-- C4: a whitespace byte below 0x80 seen with the seen-space flag clear
enqueues exactly one inter-word gap and sets the flag; with the flag set it
enqueues nothing and leaves the flag set; hence a whole nonempty run of
whitespace processed from a clear flag enqueues exactly one inter-word
gap. -/
theorem c4_word_gap :
    (∀ b, b < 0x80 → byte_isspace b = true →
      fetch_one false b = some (true, [seg.inWord])) ∧
    (∀ b, b < 0x80 → byte_isspace b = true →
      fetch_one true b = some (true, [])) ∧
    (∀ bs, bs ≠ [] → (∀ b ∈ bs, b < 0x80 ∧ byte_isspace b = true) →
      fetch_chars false bs = some (true, [seg.inWord])) := by
  have h1 : ∀ b, b < 0x80 → byte_isspace b = true →
      fetch_one false b = some (true, [seg.inWord]) := by
    intro b hb hsp
    unfold fetch_one
    rw [if_neg (by push_neg; exact ⟨by omega, by simp [hsp]⟩)]
    simp
  have h2 : ∀ b, b < 0x80 → byte_isspace b = true →
      fetch_one true b = some (true, []) := by
    intro b hb hsp
    unfold fetch_one
    rw [if_neg (by push_neg; exact ⟨by omega, by simp [hsp]⟩)]
    simp
  have hrun : ∀ bs, (∀ b ∈ bs, b < 0x80 ∧ byte_isspace b = true) →
      fetch_chars true bs = some (true, []) := by
    intro bs
    induction bs with
    | nil => intro h; rfl
    | cons b rest ih =>
      intro h
      have hb := h b (List.mem_cons_self b rest)
      have hrest : ∀ x ∈ rest, x < 0x80 ∧ byte_isspace x = true :=
        fun x hx => h x (List.mem_cons_of_mem b hx)
      rw [fetch_chars, h2 b hb.1 hb.2]
      simp [ih hrest]
  refine ⟨h1, h2, ?_⟩
  intro bs hne h
  rcases bs with _ | ⟨b, rest⟩
  · exact absurd rfl hne
  · have hb := h b (List.mem_cons_self b rest)
    have hrest : ∀ x ∈ rest, x < 0x80 ∧ byte_isspace x = true :=
      fun x hx => h x (List.mem_cons_of_mem b hx)
    rw [fetch_chars, h1 b hb.1 hb.2]
    simp [hrun rest hrest]

/-- C4 witness: byte 32 (space) with each initial flag value, and the run
of two spaces. -/
theorem c4_word_gap_witness :
    ((32:ℕ) < 0x80 ∧ byte_isspace 32 = true) ∧
    fetch_one false 32 = some (true, [seg.inWord]) ∧
    fetch_one true 32 = some (true, []) ∧
    (([32, 32] : List ℕ) ≠ [] ∧ fetch_chars false [32, 32] = some (true, [seg.inWord])) :=
  ⟨⟨by norm_num, by decide⟩, c4_word_gap.1 32 (by norm_num) (by decide),
    c4_word_gap.2.1 32 (by norm_num) (by decide),
    ⟨by decide, c4_word_gap.2.2 [32, 32] (by decide) (by decide)⟩⟩

/-- C5 counterexample: processing the unsupported byte '@' (64) with the
seen-space flag set enqueues nothing but CLEARS the flag (the code
executes `pars->sp_seenspace = 0` for every non-space byte, hit or miss),
contradicting the claim that the flag is left unchanged for both initial
flag values. -/
theorem c5_counterexample :
    fetch_one true 64 = some (false, []) ∧ fetch_one true 64 ≠ some (true, []) := by
  decide

/-- C5 amended: a byte that is neither whitespace nor present in the Morse
table (after lowercasing) enqueues no segment and CLEARS the seen-space
flag (so the flag is unchanged only when it was already clear). -/
theorem c5_unsupported_byte (b : ℕ) (sp : Bool)
    (hns : 0x80 ≤ b ∨ byte_isspace b = false)
    (hmiss : morse_chars.find? (fun p => p.1 == lower_byte b) = none) :
    fetch_one sp b = some (false, []) := by
  unfold fetch_one
  rw [if_pos hns]
  unfold convert_char
  rw [hmiss]
  rfl

/-- C5 witness: the amended statement applied at byte 64 ('@') with the
flag set. -/
theorem c5_unsupported_byte_witness :
    ((0x80 ≤ (64:ℕ) ∨ byte_isspace 64 = false) ∧
      morse_chars.find? (fun p => p.1 == lower_byte 64) = none) ∧
    fetch_one true 64 = some (false, []) :=
  ⟨⟨Or.inr (by decide), by decide⟩,
    c5_unsupported_byte 64 true (Or.inr (by decide)) (by decide)⟩

/-- C10: every entry of the static Morse table has a non-NUL key and a
non-empty pattern of only '.' and '-' symbols, so `play_string` never
reaches its "invalid character in mtable" abort on a table pattern. -/
theorem c10_table_valid :
    ∀ p ∈ morse_chars, p.1 ≠ 0 ∧ p.2 ≠ [] ∧
      (∀ ch ∈ p.2, ch = '.' ∨ ch = '-') ∧ (play_string p.2).isSome = true := by
  intro p hp
  have h := morse_chars_patterns_valid p hp
  refine ⟨h.1, h.2.1, h.2.2, ?_⟩
  rw [play_string_valid p.2 h.2.2]
  rfl

/-- C10 witness: the table-validity theorem applied at the entry for 'a'. -/
theorem c10_table_valid_witness :
    (('a'.toNat, ['.', '-']) ∈ morse_chars) ∧
    (('a'.toNat : ℕ) ≠ 0 ∧ (['.', '-'] : List Char) ≠ [] ∧
      (∀ ch ∈ (['.', '-'] : List Char), ch = '.' ∨ ch = '-') ∧
      (play_string ['.', '-']).isSome = true) := by
  have hmem : (('a'.toNat, ['.', '-']) : ℕ × List Char) ∈ morse_chars := by decide
  exact ⟨hmem, c10_table_valid _ hmem⟩

/-- Enqueueing any list of well-formed segments preserves the playback
invariant. -/
theorem enqueue_segs_inv (P : loop_params) (hP : ∀ t, sound_wf (P.snds t))
    (st : play_head) (tags : List seg) (hinv : head_inv st) :
    head_inv (enqueue_segs P st tags) := by
  induction tags generalizing st with
  | nil => exact hinv
  | cons t rest ih =>
    have h1 : enqueue_segs P st (t :: rest) =
        enqueue_segs P (enqueue_sound (P.snds t) (P.snds t).len st) rest := by
      simp [enqueue_segs]
    rw [h1]
    exact ih _ (enqueue_sound_inv (P.snds t) st (hP t) hinv)

/-- Every step of the poll loop preserves the loop invariant. -/
theorem loop_step_inv (P : loop_params) (hP : ∀ t, sound_wf (P.snds t))
    (s s2 : loop_state) (hinv : loop_inv s) (hstep : loop_step P s s2) :
    loop_inv s2 := by
  obtain ⟨hmp, hrun, hdn⟩ := hinv
  cases hstep with
  | read_eof rest h1 h2 h3 h4 =>
    exact ⟨hmp, hrun, fun h => absurd (show s.done = true from h) (by simp [h1])⟩
  | read_chunk chunk rest sp tags h1 h2 h3 h4 h5 h6 =>
    exact ⟨enqueue_segs_inv P hP s.mp tags hmp, hrun,
      fun h => absurd (show s.done = true from h) (by simp [h1])⟩
  | write_out h1 =>
    have hafeed : head_inv (apply_feed P.quiet P.blocksize s.mp) :=
      apply_op_inv s.mp (q_op.feed P.quiet P.blocksize) hmp
        (by intro snd hs; simp [ops_sounds, List.filterMap_cons] at hs)
    by_cases hc : s.iseof = true ∧ (feed_audio P.quiet s.mp.l P.blocksize).q = []
    · unfold output_update
      rw [if_pos hc]
      refine ⟨hafeed, fun h => ?_, fun h => ⟨hc.2, hc.1, ?_⟩⟩
      · simp at h
      · show s.drains + 1 = 1
        rw [hrun h1]
    · unfold output_update
      rw [if_neg hc]
      refine ⟨hafeed, fun h => hrun h1, ?_⟩
      exact fun h => absurd (show s.done = true from h) (by simp [h1])

/-- The loop invariant propagates along any execution of the poll loop. -/
theorem loop_reaches_inv (P : loop_params) (hP : ∀ t, sound_wf (P.snds t))
    (s s2 : loop_state) (hinv : loop_inv s) (hr : loop_reaches P s s2) :
    loop_inv s2 := by
  induction hr with
  | refl => exact hinv
  | tail t u hst hstep ih => exact loop_step_inv P hP t u ih hstep

/-- C2: in every execution of the poll loop from its initial state, if the
loop has terminated then end of input was observed, the playback queue is
empty, the drain signal was issued exactly once, and the samples written
from the queue are exactly the samples of every enqueued segment, complete
and in enqueue order (no queued segment skipped or truncated). -/
theorem c2_drain_to_completion (P : loop_params) (input : List (List ℕ)) (s : loop_state)
    (hP : ∀ t, sound_wf (P.snds t))
    (hreach : loop_reaches P (loop_init input) s) (hdone : s.done = true) :
    s.mp.l = [] ∧ s.iseof = true ∧ s.drains = 1 ∧ s.mp.consumed = s.mp.hist := by
  have hinit : loop_inv (loop_init input) := by
    refine ⟨head_inv_init, fun h => rfl, fun h => ?_⟩
    simp [loop_init] at h
  obtain ⟨hmp, hrun, hdn⟩ := loop_reaches_inv P hP _ s hinit hreach
  obtain ⟨hl, hiseof, hdr⟩ := hdn hdone
  refine ⟨hl, hiseof, hdr, ?_⟩
  have hstream := hmp.2.2.2
  rw [hl] at hstream
  simpa [queue_stream] using hstream

/-- C2 witness: a two-step execution (zero-length read, then one POLLOUT
round that drains and exits) of the loop with concrete parameters. -/
theorem c2_drain_to_completion_witness :
    (∀ t, sound_wf (demo_params.snds t)) ∧
    ((output_update demo_params demo_mid).mp.l = [] ∧
     (output_update demo_params demo_mid).iseof = true ∧
     (output_update demo_params demo_mid).drains = 1 ∧
     (output_update demo_params demo_mid).mp.consumed =
       (output_update demo_params demo_mid).mp.hist) := by
  have hP : ∀ t, sound_wf (demo_params.snds t) := fun t => ⟨rfl, le_refl 1⟩
  have hstep1 : loop_step demo_params (loop_init [[]]) demo_mid :=
    loop_step.read_eof (loop_init [[]]) [] rfl rfl (by decide) rfl
  have hstep2 : loop_step demo_params demo_mid (output_update demo_params demo_mid) :=
    loop_step.write_out demo_mid rfl
  have hreach : loop_reaches demo_params (loop_init [[]])
      (output_update demo_params demo_mid) :=
    loop_reaches.tail _ _ _
      (loop_reaches.tail _ _ _ (loop_reaches.refl _) hstep1) hstep2
  have hdone : (output_update demo_params demo_mid).done = true := rfl
  exact ⟨hP, c2_drain_to_completion demo_params [[]] _ hP hreach hdone⟩

end Morseplayer
